import Mathlib

/-!
# ClearWave — verification of the per-block audio processing core

Shallow embedding of `clearwave.py` (the `AudioProcessor.run` callback, the
`stop` method, and the GUI initialisation order that determines the default
noise-reduction strength).

Modelling conventions:
* 32-bit floats are modelled as exact real numbers (`ℝ`); "within numerical
  tolerance" claims become exact equalities over this model.
* A 2-D numpy array of shape `(frames, channels)` is a `List (List ℝ)`
  (rows are frames).  Fixed channel count of an array with zero rows is not
  representable in this encoding; no claim depends on it.
* Operations that can raise a Python exception (`ValueError` from shape
  mismatches, broadcast failures, or invalid FFT sizes) return `Option`,
  with `none` marking the raise.  The callback's `try/except` blocks become
  `match`es on the `Option`.
-/

noncomputable section

namespace ClearWave

abbrev Sig := List ℝ
abbrev Block := List (List ℝ)

/-! ## numpy primitives -/

/-- `np.mean` of a 1-D array: sum divided by length. -/
def mean (xs : List ℝ) : ℝ := xs.sum / xs.length

/-- `np.linspace(a, b, n)`: `n` evenly spaced samples from `a` to `b`
inclusive; `n = 0` gives the empty array and `n = 1` gives `[a]`. -/
def linspace (a b : ℝ) (n : ℕ) : List ℝ :=
  if n = 0 then []
  else if n = 1 then [a]
  else (List.range n).map (fun i : ℕ => a + (b - a) * i / (n - 1))

/-- `np.hanning(M)`: the Hann window `0.5 - 0.5 cos (2πn/(M-1))`,
with `np.hanning(1) = [1]`. -/
def hanning (M : ℕ) : List ℝ :=
  if M = 1 then [1]
  else (List.range M).map (fun n : ℕ => 1 / 2 - 1 / 2 * Real.cos (2 * Real.pi * n / (M - 1)))

/-- Full discrete convolution (`np.convolve(a, v, mode='full')`):
`c k = ∑ j, a j * v (k - j)`, length `len a + len v - 1`; indices outside
either array contribute `0`. -/
def convolveFull (a v : List ℝ) : List ℝ :=
  (List.range (a.length + v.length - 1)).map (fun k =>
    ∑ j ∈ Finset.range a.length,
      if j ≤ k then a.getD j 0 * v.getD (k - j) 0 else 0)

/-- `np.convolve(a, v, mode='same')`: the central `max (len a) (len v)`
entries of the full convolution, starting at offset `(min (len a) (len v) - 1) / 2`. -/
def convolveSame (a v : List ℝ) : List ℝ :=
  ((convolveFull a v).drop ((min a.length v.length - 1) / 2)).take (max a.length v.length)

/-! ## Real-valued FFT model

`np.fft.rfft` / `np.fft.irfft` are modelled by the exact DFT sums they
compute.  `irfft` reconstructs from the half spectrum by Hermitian
extension (`full (n - k) = conj (full k)`), which reproduces numpy's
treatment of the stored half spectrum, including its implicit discarding
of the imaginary parts of the DC and Nyquist bins. -/

/-- Forward half-spectrum DFT bins of a real signal:
`X k = ∑ n, x n · exp (-2πi·k·n/N)` for `k = 0, …, N/2`. -/
def dftBins (x : List ℝ) : List ℂ :=
  (List.range (x.length / 2 + 1)).map (fun k : ℕ =>
    ∑ n ∈ Finset.range x.length,
      (x.getD n 0 : ℂ) * Complex.exp (-(2 * Real.pi * Complex.I) * k * n / x.length))

/-- `np.fft.rfft`: raises `ValueError` ("Invalid number of FFT data points")
on an empty input. -/
def rfft (x : List ℝ) : Option (List ℂ) :=
  if x.length = 0 then none else some (dftBins x)

/-- Hermitian extension of a half spectrum of `m` bins to a full spectrum of
`n = 2(m-1)` bins. -/
def fullSpec (X : List ℂ) (n k : ℕ) : ℂ :=
  if k < X.length then X.getD k 0 else (starRingEnd ℂ) (X.getD (n - k) 0)

/-- Samples of the inverse real FFT: output length `n = 2(len X - 1)`,
`x j = Re((1/n) ∑ k < n, full k · exp (2πi·j·k/n))`. -/
def irfftVals (X : List ℂ) : List ℝ :=
  (List.range (2 * (X.length - 1))).map (fun j : ℕ =>
    ((∑ k ∈ Finset.range (2 * (X.length - 1)),
        fullSpec X (2 * (X.length - 1)) k *
          Complex.exp (2 * Real.pi * Complex.I * j * k / ((2 * (X.length - 1) : ℕ) : ℂ))) /
      ((2 * (X.length - 1) : ℕ) : ℂ)).re)

/-- `np.fft.irfft` with the default output length `2*(len X - 1)`: raises
`ValueError` when that length is `0` (input of at most one bin). -/
def irfft (X : List ℂ) : Option (List ℝ) :=
  if X.length ≤ 1 then none else some (irfftVals X)

/-- In-place 1-D elementwise product `a *= b` where `a` is complex and `b`
real: `b` must broadcast to `a`'s shape, i.e. `len b = len a` or `len b = 1`;
any other shape raises. -/
def inplaceMul1D (a : List ℂ) (b : List ℝ) : Option (List ℂ) :=
  if b.length = a.length then
    some (List.zipWith (fun (z : ℂ) (r : ℝ) => z * (r : ℂ)) a b)
  else if b.length = 1 then some (a.map (fun z => z * ((b.getD 0 0 : ℝ) : ℂ)))
  else none

/-! ## SpectralGate — per-channel processing (source lines 40–62) -/

/-- The boolean keep-mask cast to float (source lines 42–51): magnitudes of
the bins, threshold `mean(magnitudes) * strength`, `1.0` where the
magnitude strictly exceeds the threshold, `0.0` elsewhere. -/
def keepMask (freqData : List ℂ) (strength : ℝ) : List ℝ :=
  let magnitudes := freqData.map Complex.abs
  let threshold := mean magnitudes * strength
  magnitudes.map (fun m => if m > threshold then (1 : ℝ) else 0)

/-- `smoothing_window / smoothing_window.sum()` for `np.hanning(5)`. -/
def smoothKernel : List ℝ := (hanning 5).map (fun x => x / (hanning 5).sum)

/-- One channel's spectral gate: forward FFT, magnitude threshold
`mean * strength`, boolean keep-mask cast to float, smoothing by the
normalised 5-tap Hann window with `mode='same'`, in-place mask application,
inverse FFT, and trim (`clean_audio[:len(channel_data)]`) when the lengths
differ.  The source has no padding step. -/
def gate (channelData : Sig) (strength : ℝ) : Option Sig := do
  let freqData ← rfft channelData
  let smoothedMask := convolveSame (keepMask freqData strength) smoothKernel
  let freqClean ← inplaceMul1D freqData smoothedMask
  let cleanAudio ← irfft freqClean
  let cleanAudio := if cleanAudio.length ≠ channelData.length
    then cleanAudio.take channelData.length else cleanAudio
  return cleanAudio

/-! ## Per-channel loop over the block (source lines 37–65) -/

/-- Column extraction `audio_data[:, ch]`. -/
def getCol (b : Block) (ch : ℕ) : Sig := b.map (fun row => row.getD ch 0)

/-- Column store `audio_data[:, ch] = v`: `v` must broadcast to the column,
i.e. `len v` equals the number of frames, or `len v = 1`; otherwise numpy
raises ("could not broadcast"). -/
def setCol (b : Block) (ch : ℕ) (v : Sig) : Option Block :=
  if v.length = b.length then some (List.zipWith (fun row x => row.set ch x) b v)
  else if v.length = 1 then some (b.map (fun row => row.set ch (v.getD 0 0)))
  else none

/-- `audio_data.shape[1]`; the channel count of a block with zero rows is
lost by the list representation. -/
def numChannels (b : Block) : ℕ := (b.getD 0 []).length

/-- The `for ch in range(audio_data.shape[1])` loop: gate each channel and
store it back; any raise aborts the surrounding `try`. -/
def channelLoop (strength : ℝ) (b : Block) : Option Block :=
  (List.range (numChannels b)).foldlM
    (fun acc ch => do
      let clean ← gate (getCol acc ch) strength
      setCol acc ch clean)
    b

/-! ## BlockCrossfader — crossfade with the previous buffer (source lines 67–74) -/

/-- `fade_len = int(len(audio_data) * self.overlap)`.  Python's `int()`
truncates toward zero; for a nonnegative product this is the floor, and
`Int.toNat` sends the (nonpositive) floor of a negative product to `0`,
matching truncation. -/
def fadeLenOf (b : Block) (overlap : ℝ) : ℕ := (⌊(b.length : ℝ) * overlap⌋).toNat

/-- Fresh product `tail * ramp[:, np.newaxis]` of a `(t, C)` block and an
`(f, 1)` column.  Row counts broadcast when equal or when either is `1`
(a size-1 axis also stretches to size 0); otherwise numpy raises. -/
def rampMul (a : Block) (ramp : List ℝ) : Option Block :=
  if a.length = ramp.length then
    some (List.zipWith (fun row c => row.map (fun x => x * c)) a ramp)
  else if ramp.length = 1 then
    some (a.map (fun row => row.map (fun x => x * ramp.getD 0 0)))
  else if a.length = 1 then
    some (ramp.map (fun c => (a.getD 0 []).map (fun x => x * c)))
  else none

/-- In-place `dest *= ramp[:, np.newaxis]`: the ramp must broadcast *to*
`dest`'s shape, so its length must equal `dest`'s row count or be `1`. -/
def rampMulInto (dest : Block) (ramp : List ℝ) : Option Block :=
  if ramp.length = dest.length then
    some (List.zipWith (fun row c => row.map (fun x => x * c)) dest ramp)
  else if ramp.length = 1 then
    some (dest.map (fun row => row.map (fun x => x * ramp.getD 0 0)))
  else none

/-- One row of the in-place `+=`: the source row must broadcast to the
destination row (equal length, or length `1`). -/
def rowAddInto (d s : List ℝ) : Option (List ℝ) :=
  if s.length = d.length then some (List.zipWith (· + ·) d s)
  else if s.length = 1 then some (d.map (fun x => x + s.getD 0 0))
  else none

/-- Sequence a fallible map over a list (`none` as soon as one element
fails). -/
def mapOption (f : α → Option β) : List α → Option (List β)
  | [] => some []
  | a :: t => do
      let b ← f a
      let bt ← mapOption f t
      return b :: bt

/-- In-place 2-D `dest += src`: the source must broadcast to `dest`'s shape
(row count equal or `1`, and likewise per row). -/
def addInto (dest src : Block) : Option Block :=
  if src.length = dest.length then
    mapOption (fun p => rowAddInto p.1 p.2) (dest.zip src)
  else if src.length = 1 then
    mapOption (fun d => rowAddInto d (src.getD 0 [])) dest
  else none

/-- The crossfade (source lines 67–74):

    fade_len = int(len(audio_data) * self.overlap)
    fade_in  = np.linspace(0, 1, fade_len)[:, np.newaxis]
    fade_out = np.linspace(1, 0, fade_len)[:, np.newaxis]
    audio_data[:fade_len] *= fade_in
    audio_data[:fade_len] += self.prev_buffer[-fade_len:] * fade_out

Note `prev[-fade_len:]` for `fade_len = 0` is `prev[-0:] = prev[0:]`, the
*whole* previous buffer (Python negative-zero slicing). -/
def crossfade (cur prev : Block) (overlap : ℝ) : Option Block := do
  let fadeLen := fadeLenOf cur overlap
  let fadeIn := linspace 0 1 fadeLen
  let fadeOut := linspace 1 0 fadeLen
  let pre ← rampMulInto (cur.take fadeLen) fadeIn
  let tail := if fadeLen = 0 then prev else prev.drop (prev.length - fadeLen)
  let r ← rampMul tail fadeOut
  let pre2 ← addInto pre r
  return pre2 ++ cur.drop fadeLen

/-! ## OutputNormalizer (source lines 79–82) -/

/-- `np.max(np.abs(block))`.  All entries of the mapped list are `≥ 0`, so
folding `max` from `0` equals the maximum of a nonempty array. -/
def blockPeak (b : Block) : ℝ := ((b.flatten).map (fun x => |x|)).foldr max 0

/-- Normalisation (source lines 79–82): `np.max` raises on an empty array;
otherwise scale by `0.9 / peak` when the peak is positive, else leave the
block unchanged. -/
def normalize (b : Block) : Option Block :=
  if b.flatten.isEmpty then none
  else
    let maxVal := blockPeak b
    some (if maxVal > 0 then b.map (List.map (fun x => x / maxVal * (9 / 10))) else b)

/-! ## The two processing sections of the callback -/

/-- A zero block of the same shape (`np.zeros_like`). -/
def zerosLike (b : Block) : Block := b.map (fun row => row.map (fun _ => 0))

/-- Lazy initialisation of `self.prev_buffer` (source lines 33–34 / 96–97). -/
def initPrev (prev : Option Block) (b : Block) : Block := prev.getD (zerosLike b)

/-- First processing section (source lines 26–85, inside the first `try`):
per-channel gate, crossfade, store the *pre-normalisation* crossfaded block
into `prev_buffer` (line 77), then normalise.  Returns the written
`outdata` (`none` models a raised exception) *and* the `prev_buffer` as
left by this section: the store happens mid-`try`, so a failure after it
(only `np.max` on a zero-sample block) still keeps the stored block. -/
def section1 (strength overlap : ℝ) (indata prevBuf : Block) :
    Option Block × Block :=
  match channelLoop strength indata with
  | none => (none, prevBuf)
  | some audio =>
    match crossfade audio prevBuf overlap with
    | none => (none, prevBuf)
    | some faded =>
      -- line 77: self.prev_buffer = audio_data.copy(), before normalisation
      match normalize faded with
      | none => (none, faded)
      | some out => (some out, faded)

/-- `np.fft.rfft(a, axis=0)`: column-wise forward transform; raises when the
array has zero rows. -/
def rfft2D (b : Block) : Option (List (List ℂ)) :=
  if b.length = 0 then none
  else some (List.transpose ((List.transpose b).map dftBins))

/-- `np.convolve` requires one-dimensional inputs; the whole-block section
passes the 2-D mask, so the call raises
`ValueError: object too deep for desired array` for every block.  Modelled
as always failing. -/
def convolve2D (a : List (List ℝ)) (v : List ℝ) : Option (List ℝ) := none

/-- (Unreachable in the source.)  `freq_data * smoothed_mask[:, np.newaxis]`
with broadcasting over rows. -/
def mulCols (a : List (List ℂ)) (col : List ℝ) : Option (List (List ℂ)) :=
  if a.length = col.length then
    some (List.zipWith (fun (row : List ℂ) (c : ℝ) => row.map (fun z => z * ((c : ℝ) : ℂ))) a col)
  else if col.length = 1 then
    some (a.map (fun row => row.map (fun z => z * ((col.getD 0 0 : ℝ) : ℂ))))
  else if a.length = 1 then
    some (col.map (fun c => (a.getD 0 []).map (fun z => z * ((c : ℝ) : ℂ))))
  else none

/-- (Unreachable in the source.) `np.fft.irfft(f, axis=0)`. -/
def irfft2D (f : List (List ℂ)) : Option Block :=
  if f.length ≤ 1 then none
  else some (List.transpose ((List.transpose f).map irfftVals))

/-- Second processing section (source lines 91–136, the second `try`):
recomputes from the *raw* input with a whole-block (axis-0) transform.  Its
mask is two-dimensional, so the `np.convolve` call raises for every block
(and for a zero-row block the `rfft` raises even earlier); the steps after
`convolve2D` are therefore unreachable but are modelled for faithfulness. -/
def section2 (strength overlap : ℝ) (indata prevBuf : Block) :
    Option (Block × Block) := do
  let freqData ← rfft2D indata
  let magnitudes := freqData.map (fun row => row.map Complex.abs)
  -- phases = np.angle(freq_data) is computed by the source and never used
  let threshold := mean magnitudes.flatten * strength
  let mask := magnitudes.map (fun row => row.map (fun x => if x > threshold then (1 : ℝ) else 0))
  let smoothedMask ← convolve2D mask (hanning 5)
  let freqClean ← mulCols freqData smoothedMask
  let clean ← irfft2D freqClean
  let faded ← crossfade clean prevBuf overlap
  let newPrev := faded
  let out ← normalize faded
  return (out, newPrev)

/-- The audio callback (source lines 22–136): run the first section (its
handler substitutes the raw input); then run the second section, which
always ends in its handler and overwrites `outdata` with the raw input.
The first section's write to `outdata` is dead.  Returns the final
`(outdata, prev_buffer)`; the function is total — no exception escapes the
callback boundary. -/
def callback (strength overlap : ℝ) (indata : Block) (prev0 : Option Block) :
    Block × Option Block :=
  let prev1 := initPrev prev0 indata
  -- the first section's output write to outdata (or its handler's raw-input
  -- write) is dead: the second section unconditionally overwrites outdata
  let prev2 := (section1 strength overlap indata prev1).2
  match section2 strength overlap indata prev2 with
  | some (o, p) => (o, some p)
  | none => (indata, some prev2)

/-! ## Controller state (class `AudioProcessor`) and GUI defaults -/

/-- The mutable state of `AudioProcessor` (source lines 12–19). -/
structure AudioProcessor where
  running : Bool
  noise_reduction : ℝ
  output_device : Option ℕ
  prev_buffer : Option Block
  buffer_size : ℕ
  overlap : ℝ

/-- `AudioProcessor.__init__`. -/
def AudioProcessor.init : AudioProcessor :=
  { running := false, noise_reduction := 0.5, output_device := none,
    prev_buffer := none, buffer_size := 2048, overlap := 0.5 }

/-- `AudioProcessor.stop` (source lines 179–181). -/
def AudioProcessor.stop (p : AudioProcessor) : AudioProcessor :=
  { p with running := false, prev_buffer := none }

/-- `AudioDenoiser.update_noise_reduction` (source lines 257–258): the
`[0, 100]` slider value mapped to `[0, 1]`. -/
def update_noise_reduction (p : AudioProcessor) (value : ℕ) : AudioProcessor :=
  { p with noise_reduction := (value : ℝ) / 100 }

/-- The startup-relevant state of the `AudioDenoiser` window. -/
structure AudioDenoiser where
  slider_value : ℕ
  audio_processor : AudioProcessor

/-- `AudioDenoiser.__init__` (source lines 216–231): the slider is set to
`30` *before* its `valueChanged` signal is connected (and before the
processor object exists), so no `update_noise_reduction` call fires during
startup; the processor keeps its own `__init__` default. -/
def AudioDenoiser.init : AudioDenoiser :=
  { slider_value := 30, audio_processor := AudioProcessor.init }

/-! ## Spec-side auxiliary definitions -/

/-- Two blocks have the same shape (same row count and row lengths). -/
def sameShape (a b : Block) : Prop := a.map List.length = b.map List.length

/-- A half spectrum with its first and last bins scaled by `3/4` — the
effect of smoothing an all-pass mask with the normalised 5-tap Hann kernel
under zero-padded `same` convolution. -/
def edgeScale (X : List ℂ) : List ℂ :=
  (List.range X.length).map (fun i =>
    X.getD i 0 * (if i = 0 ∨ i = X.length - 1 then ((3 / 4 : ℝ) : ℂ) else 1))

/-! ## Helper lemmas -/

lemma getD_replicate {α : Type*} (a d : α) {N n : ℕ} (h : n < N) :
    (List.replicate N a).getD n d = a := by
  rw [List.getD_eq_getElem _ _ (by simpa using h)]
  simp

lemma le_foldr_max (l : List ℝ) (y : ℝ) (h : y ∈ l) : y ≤ l.foldr max 0 := by
  induction l with
  | nil => cases h
  | cons a t ih =>
    rcases List.mem_cons.mp h with rfl | h'
    · exact le_max_left _ _
    · exact le_trans (ih h') (le_max_right _ _)

lemma foldr_max_le (l : List ℝ) (c : ℝ) (h0 : 0 ≤ c) (h : ∀ y ∈ l, y ≤ c) :
    l.foldr max 0 ≤ c := by
  induction l with
  | nil => simpa using h0
  | cons a t ih =>
    exact max_le (h a (List.mem_cons_self a t))
      (ih (fun y hy => h y (List.mem_cons_of_mem a hy)))

lemma le_blockPeak {b : Block} {x : ℝ} (hx : x ∈ b.flatten) : |x| ≤ blockPeak b :=
  le_foldr_max _ _ (List.mem_map_of_mem _ hx)

lemma foldr_max_nonneg (l : List ℝ) : 0 ≤ l.foldr max 0 := by
  induction l with
  | nil => simp
  | cons a t ih => exact le_trans ih (le_max_right _ _)

lemma blockPeak_nonneg (b : Block) : 0 ≤ blockPeak b := foldr_max_nonneg _

lemma mapOption_length {α β : Type*} {f : α → Option β} :
    ∀ {l : List α} {l' : List β}, mapOption f l = some l' → l'.length = l.length := by
  intro l
  induction l with
  | nil => intro l' h; simp [mapOption] at h; simp [← h]
  | cons a t ih =>
    intro l' h
    simp only [mapOption, Option.bind_eq_bind, Option.bind_eq_some, Option.pure_def,
      Option.some.injEq] at h
    obtain ⟨b, _, bt, hbt, rfl⟩ := h
    simp [ih hbt]

lemma rampMulInto_length {dest : Block} {ramp : List ℝ} {out : Block}
    (h : rampMulInto dest ramp = some out) : out.length = dest.length := by
  unfold rampMulInto at h
  split at h
  · simp only [Option.some.injEq] at h
    subst h; simp; omega
  · split at h
    · simp only [Option.some.injEq] at h; subst h; simp
    · cases h

lemma addInto_length {dest src out : Block} (h : addInto dest src = some out) :
    out.length = dest.length := by
  unfold addInto at h
  split at h
  next heq =>
    have := mapOption_length h
    simpa [heq] using this
  · split at h
    · have := mapOption_length h
      simpa using this
    · cases h

lemma sameShape_length {a b : Block} (h : sameShape a b) : a.length = b.length := by
  have := congrArg List.length h
  simpa using this

lemma fadeLenOf_half_eq_zero {b : Block} (h : fadeLenOf b (1 / 2) = 0) :
    b.length ≤ 1 := by
  by_contra h'
  push_neg at h'
  have h2 : (2 : ℝ) ≤ (b.length : ℝ) := by exact_mod_cast h'
  have h1 : (1 : ℝ) ≤ (b.length : ℝ) * (1 / 2) := by linarith
  have hf : 1 ≤ ⌊(b.length : ℝ) * (1 / 2)⌋ := Int.le_floor.mpr (by exact_mod_cast h1)
  have := Int.toNat_eq_zero.mp h
  omega

/-! ## Claims -/

/-- Claim C10: after `stop()` is called in any state, the running flag is
false and `prev_buffer` is cleared to its uninitialised value, so the next
block's lazy initialisation starts from an all-zero previous block. -/
theorem stop_clears_state (p : AudioProcessor) :
    (p.stop).running = false ∧ (p.stop).prev_buffer = none ∧
    ∀ b : Block, initPrev (p.stop).prev_buffer b = zerosLike b := by
  refine ⟨rfl, rfl, fun b => ?_⟩
  simp [AudioProcessor.stop, initPrev]

/-- Claim C3 (code bug): the processing core's startup strength is the
`AudioProcessor.__init__` default `0.5`, not `0.3`.  The slider's default
value `30` *would* map to `0.3` through `update_noise_reduction`, but it is
set before the `valueChanged` signal is connected (and before the processor
exists), so the mapping never fires at startup and the GUI shows 30 while
the core processes with 0.5. -/
theorem startup_strength_mismatch :
    AudioDenoiser.init.audio_processor.noise_reduction = 1 / 2 ∧
    (update_noise_reduction AudioDenoiser.init.audio_processor
        AudioDenoiser.init.slider_value).noise_reduction = 3 / 10 ∧
    (1 / 2 : ℝ) ≠ 3 / 10 := by
  refine ⟨?_, ?_, by norm_num⟩
  · show (0.5 : ℝ) = 1 / 2
    norm_num
  · show ((30 : ℕ) : ℝ) / 100 = 3 / 10
    norm_num

/-- Claim C5: when the block's peak is positive, `normalize` scales every
sample by `headroom / peak` (with `headroom = 0.9`) and the output peak is
at most `0.9`; a (nonempty) block of peak `0` is returned unchanged. -/
theorem normalize_spec (b : Block) :
    (0 < blockPeak b →
      normalize b = some (b.map (List.map (fun x => x * (9 / 10 / blockPeak b)))) ∧
      blockPeak (b.map (List.map (fun x => x * (9 / 10 / blockPeak b)))) ≤ 9 / 10) ∧
    (b.flatten ≠ [] → blockPeak b = 0 → normalize b = some b) := by
  constructor
  · intro hpos
    have hne : b.flatten ≠ [] := by
      intro hemp
      rw [blockPeak, hemp] at hpos
      simp at hpos
    have hval : (fun x : ℝ => x / blockPeak b * (9 / 10)) =
        fun x : ℝ => x * (9 / 10 / blockPeak b) := by
      funext x; ring
    constructor
    · simp only [normalize]
      rw [if_neg (by simpa [List.isEmpty_iff] using hne)]
      rw [if_pos hpos, hval]
    · apply foldr_max_le _ _ (by norm_num)
      intro y hy
      simp only [List.mem_map] at hy
      obtain ⟨z, hz, rfl⟩ := hy
      rw [← List.map_flatten] at hz
      simp only [List.mem_map] at hz
      obtain ⟨x, hx, rfl⟩ := hz
      have hb : |x| ≤ blockPeak b := le_blockPeak hx
      have hc : (0 : ℝ) ≤ 9 / 10 / blockPeak b := by positivity
      calc |x * (9 / 10 / blockPeak b)| = |x| * (9 / 10 / blockPeak b) := by
            rw [abs_mul, abs_of_nonneg hc]
        _ ≤ blockPeak b * (9 / 10 / blockPeak b) :=
            mul_le_mul_of_nonneg_right hb hc
        _ = 9 / 10 := by field_simp; ring
  · intro hne hzero
    simp only [normalize]
    rw [if_neg (by simpa [List.isEmpty_iff] using hne)]
    rw [hzero]
    simp

/-- Witness for `normalize_spec` at the one-sample block `[[1/2]]`. -/
theorem normalize_spec_witness :
    normalize [[(1 / 2 : ℝ)]] = some [[(1 / 2 : ℝ) * (9 / 10 / blockPeak [[(1 / 2 : ℝ)]])]] ∧
    blockPeak [[(1 / 2 : ℝ)]] = 1 / 2 := by
  have hpk : blockPeak [[(1 / 2 : ℝ)]] = 1 / 2 := by
    rw [blockPeak]
    norm_num [List.flatten]
  refine ⟨?_, hpk⟩
  have h := (normalize_spec [[(1 / 2 : ℝ)]]).1 (by rw [hpk]; norm_num)
  simpa using h.1

/-- Claim C8: with the session's fixed `overlap = 0.5`, `fadeLen = 0` only
for blocks of at most one frame.  There the `*=` and `+=` act on the empty
slice `audio_data[:0]` (Python's `prev[-0:]` is the whole previous buffer,
but its product with the empty `(0,1)` ramp broadcasts to an empty array),
so the crossfade is a no-op and no error is raised. -/
theorem crossfade_fadeLen_zero (cur prev : Block) (hs : sameShape cur prev)
    (h0 : fadeLenOf cur (1 / 2) = 0) :
    crossfade cur prev (1 / 2) = some cur := by
  have hlen : prev.length = cur.length := (sameShape_length hs).symm
  have hle : cur.length ≤ 1 := fadeLenOf_half_eq_zero h0
  have h0' : fadeLenOf cur (2⁻¹ : ℝ) = 0 := by
    rw [show (2⁻¹ : ℝ) = 1 / 2 by norm_num]; exact h0
  rcases cur with _ | ⟨r, _ | ⟨r2, t⟩⟩
  · rcases prev with _ | ⟨p, ps⟩
    · simp [crossfade, h0, h0', linspace, rampMulInto, rampMul, addInto, mapOption]
    · simp at hlen
  · rcases prev with _ | ⟨p, _ | ⟨p2, ps⟩⟩
    · simp at hlen
    · simp [crossfade, h0, h0', linspace, rampMulInto, rampMul, addInto, mapOption]
    · simp at hlen
  · simp at hle

/-- Witness for `crossfade_fadeLen_zero` at a one-frame block. -/
theorem crossfade_fadeLen_zero_witness :
    crossfade [[(1 : ℝ)]] [[(2 : ℝ)]] (1 / 2) = some [[(1 : ℝ)]] := by
  apply crossfade_fadeLen_zero
  · simp [sameShape]
  · rw [fadeLenOf]
    norm_num

/-- Claim C9: a successful crossfade only modifies the first `fadeLen`
frames; every frame at index `≥ fadeLen` of the result is identical to the
corresponding frame of the pre-crossfade current block. -/
theorem crossfade_tail_unchanged (cur prev out : Block) (hs : sameShape cur prev)
    (h : crossfade cur prev (1 / 2) = some out) :
    out.drop (fadeLenOf cur (1 / 2)) = cur.drop (fadeLenOf cur (1 / 2)) := by
  clear hs
  simp only [crossfade, Option.bind_eq_bind, Option.bind_eq_some, Option.pure_def,
    Option.some.injEq] at h
  obtain ⟨pre, hpre, r, hr, pre2, hpre2, hout⟩ := h
  have hL1 : pre.length = (cur.take (fadeLenOf cur (1 / 2))).length :=
    rampMulInto_length hpre
  have hL2 : pre2.length = pre.length := addInto_length hpre2
  have hL : pre2.length = min (fadeLenOf cur (1 / 2)) cur.length := by
    rw [hL2, hL1, List.length_take]
  subst hout
  set f := fadeLenOf cur (1 / 2) with hf
  have hple : pre2.length ≤ f := by rw [hL]; exact min_le_left _ _
  have : f = pre2.length + (f - pre2.length) := by omega
  rw [this, List.drop_append]
  rcases le_or_lt f cur.length with hc | hc
  · have hlf : pre2.length = f := by rw [hL, min_eq_left hc]
    rw [show f - pre2.length = 0 by omega, List.drop_zero]
  · have h1 : List.drop (pre2.length + (f - pre2.length)) cur = [] :=
      List.drop_eq_nil_iff.mpr (by omega)
    rw [h1, List.drop_nil]

/-- Witness for `crossfade_tail_unchanged` on concrete two-frame blocks. -/
theorem crossfade_tail_unchanged_witness :
    ([[(4 : ℝ)], [2]] : Block).drop (fadeLenOf [[(1 : ℝ)], [2]] (1 / 2)) =
      ([[(1 : ℝ)], [2]] : Block).drop (fadeLenOf [[(1 : ℝ)], [2]] (1 / 2)) := by
  have hfl : fadeLenOf ([[(1 : ℝ)], [2]] : Block) (1 / 2) = 1 := by
    rw [fadeLenOf]
    norm_num
  have heval : crossfade [[(1 : ℝ)], [2]] [[(3 : ℝ)], [4]] (1 / 2) = some [[(4 : ℝ)], [2]] := by
    simp only [crossfade, hfl]
    norm_num [linspace, rampMulInto, rampMul, addInto, rowAddInto, mapOption]
  exact crossfade_tail_unchanged _ _ _ (by simp [sameShape]) heval

/-! ## Length bookkeeping for the gate -/

lemma dftBins_length (x : Sig) : (dftBins x).length = x.length / 2 + 1 := by
  rw [dftBins, List.length_map, List.length_range]

lemma hanning_length (M : ℕ) : (hanning M).length = M := by
  rw [hanning]
  split
  · simp_all
  · rw [List.length_map, List.length_range]

lemma smoothKernel_length : smoothKernel.length = 5 := by
  simp [smoothKernel, hanning_length]

lemma keepMask_length (freqData : List ℂ) (s : ℝ) :
    (keepMask freqData s).length = freqData.length := by
  simp [keepMask]

lemma convolveFull_length (a v : List ℝ) :
    (convolveFull a v).length = a.length + v.length - 1 := by
  simp [convolveFull]

lemma convolveSame_length (a v : List ℝ) :
    (convolveSame a v).length =
      min (max a.length v.length)
        (a.length + v.length - 1 - (min a.length v.length - 1) / 2) := by
  simp [convolveSame, convolveFull_length]

lemma smoothed_length (maskF : List ℝ) (h : 1 ≤ maskF.length) :
    (convolveSame maskF smoothKernel).length = max maskF.length 5 := by
  rw [convolveSame_length, smoothKernel_length]
  omega

lemma inplaceMul1D_none {a : List ℂ} {b : List ℝ} (h1 : b.length ≠ a.length)
    (h2 : b.length ≠ 1) : inplaceMul1D a b = none := by
  rw [inplaceMul1D, if_neg h1, if_neg h2]

/-- A channel whose half spectrum has fewer than 5 bins (length `< 8`)
makes the gate raise: the length-5 smoothed mask cannot broadcast onto the
shorter spectrum in `freq_data *= smoothed_mask`. -/
lemma gate_short_none (x : Sig) (s : ℝ) (h1 : x.length ≠ 0)
    (h2 : x.length / 2 + 1 < 5) : gate x s = none := by
  rw [gate, rfft, if_neg h1]
  simp only [Option.bind_eq_bind, Option.some_bind]
  have hm : (dftBins x).length = x.length / 2 + 1 := dftBins_length x
  have hsl : (convolveSame (keepMask (dftBins x) s) smoothKernel).length = 5 := by
    rw [smoothed_length _ (by rw [keepMask_length, hm]; omega), keepMask_length, hm]
    omega
  have hnone : inplaceMul1D (dftBins x)
      (convolveSame (keepMask (dftBins x) s) smoothKernel) = none :=
    inplaceMul1D_none (by rw [hsl, hm]; omega) (by rw [hsl]; omega)
  rw [hnone]
  rfl

/-! ## The second section always raises -/

lemma section2_eq_none (s ov : ℝ) (ind prevB : Block) :
    section2 s ov ind prevB = none := by
  rw [section2]
  rcases Nat.eq_zero_or_pos ind.length with h | h
  · rw [rfft2D, if_pos h]
    rfl
  · rw [rfft2D, if_neg (by omega)]
    simp [convolve2D]

/-- Claim C1: for every input block, the callback's final output is the
unmodified input: the second section always raises at the 2-D `np.convolve`
(or at the axis-0 `rfft` for a zero-row block), so its handler overwrites
`outdata` with `indata`, regardless of what the first section produced.
Meanwhile `prev_buffer` keeps whatever the first section left in it —
`(section1 …).2`, which by `section1`'s definition is the crossfaded,
pre-normalisation block whenever execution reached the line-77 store, and
the initialised previous buffer otherwise. -/
theorem callback_output_is_input (strength overlap : ℝ) (indata : Block)
    (prev0 : Option Block) :
    (callback strength overlap indata prev0).1 = indata ∧
    (callback strength overlap indata prev0).2 =
      some (section1 strength overlap indata (initPrev prev0 indata)).2 := by
  rw [callback]
  simp [section2_eq_none]

/-! ## Shape preservation along the first section -/

lemma rowAddInto_length {d s r : List ℝ} (h : rowAddInto d s = some r) :
    r.length = d.length := by
  rw [rowAddInto] at h
  split at h
  next heq =>
    simp only [Option.some.injEq] at h
    subst h
    simp [heq]
  · split at h
    · simp only [Option.some.injEq] at h
      subst h
      simp
    · cases h

lemma rampMulInto_rowlens {dest : Block} {ramp : List ℝ} {out : Block}
    (h : rampMulInto dest ramp = some out) :
    out.map List.length = dest.map List.length := by
  rw [rampMulInto] at h
  split at h
  next heq =>
    simp only [Option.some.injEq] at h
    subst h
    apply List.ext_getElem
    · simp [heq]
    · intro i h1 h2
      simp only [List.getElem_map, List.getElem_zipWith, List.length_map]
  · split at h
    · simp only [Option.some.injEq] at h
      subst h
      simp [List.map_map, Function.comp_def]
    · cases h

lemma mapOption_rowlens_zip : ∀ {dest src out : Block},
    dest.length = src.length →
    mapOption (fun p => rowAddInto p.1 p.2) (dest.zip src) = some out →
    out.map List.length = dest.map List.length := by
  intro dest
  induction dest with
  | nil =>
    intro src out _ hm
    simp only [List.zip_nil_left, mapOption, Option.some.injEq] at hm
    simp [← hm]
  | cons d ds ih =>
    intro src out h hm
    cases src with
    | nil => simp at h
    | cons s ss =>
      simp only [List.zip_cons_cons, mapOption, Option.bind_eq_bind, Option.bind_eq_some,
        Option.pure_def, Option.some.injEq] at hm
      obtain ⟨r, hr, rest, hrest, rfl⟩ := hm
      simp only [List.map_cons]
      rw [rowAddInto_length hr, ih (by simpa using h) hrest]

lemma mapOption_rowlens_single : ∀ {dest : Block} {s0 : Sig} {out : Block},
    mapOption (fun d => rowAddInto d s0) dest = some out →
    out.map List.length = dest.map List.length := by
  intro dest
  induction dest with
  | nil =>
    intro s0 out hm
    simp only [mapOption, Option.some.injEq] at hm
    simp [← hm]
  | cons d ds ih =>
    intro s0 out hm
    simp only [mapOption, Option.bind_eq_bind, Option.bind_eq_some,
      Option.pure_def, Option.some.injEq] at hm
    obtain ⟨r, hr, rest, hrest, rfl⟩ := hm
    simp only [List.map_cons]
    rw [rowAddInto_length hr, ih hrest]

lemma addInto_rowlens {dest src out : Block} (h : addInto dest src = some out) :
    out.map List.length = dest.map List.length := by
  rw [addInto] at h
  split at h
  next heq => exact mapOption_rowlens_zip heq.symm h
  · split at h
    · exact mapOption_rowlens_single h
    · cases h

lemma crossfade_rowlens {cur prev out : Block} {ov : ℝ}
    (h : crossfade cur prev ov = some out) :
    out.map List.length = cur.map List.length := by
  simp only [crossfade, Option.bind_eq_bind, Option.bind_eq_some, Option.pure_def,
    Option.some.injEq] at h
  obtain ⟨pre, hpre, r, hr, pre2, hpre2, hout⟩ := h
  subst hout
  rw [List.map_append, addInto_rowlens hpre2, rampMulInto_rowlens hpre,
    ← List.map_append, List.take_append_drop]

lemma setCol_rowlens {b b' : Block} {ch : ℕ} {v : Sig} (h : setCol b ch v = some b') :
    b'.map List.length = b.map List.length := by
  rw [setCol] at h
  split at h
  next heq =>
    simp only [Option.some.injEq] at h
    subst h
    apply List.ext_getElem
    · simp [heq]
    · intro i h1 h2
      simp only [List.getElem_map, List.getElem_zipWith, List.length_set]
  · split at h
    · simp only [Option.some.injEq] at h
      subst h
      simp [List.map_map, Function.comp_def, List.length_set]
    · cases h

lemma foldlM_gate_rowlens (strength : ℝ) :
    ∀ (l : List ℕ) (b b' : Block),
      List.foldlM (fun acc ch => do
        let clean ← gate (getCol acc ch) strength
        setCol acc ch clean) b l = some b' →
      b'.map List.length = b.map List.length := by
  intro l
  induction l with
  | nil =>
    intro b b' h
    simp only [List.foldlM_nil, Option.pure_def, Option.some.injEq] at h
    rw [← h]
  | cons a t ih =>
    intro b b' h
    rw [List.foldlM_cons] at h
    simp only [Option.bind_eq_bind, Option.bind_eq_some] at h
    obtain ⟨b1, ⟨clean, _, hset⟩, hrest⟩ := h
    rw [ih b1 b' hrest, setCol_rowlens hset]

lemma channelLoop_rowlens {strength : ℝ} {b b' : Block}
    (h : channelLoop strength b = some b') :
    b'.map List.length = b.map List.length :=
  foldlM_gate_rowlens strength _ b b' h

lemma normalize_eq_none {b : Block} (h : normalize b = none) : b.flatten = [] := by
  rw [normalize] at h
  split at h
  next hemp => exact List.isEmpty_iff.mp hemp
  · cases h

lemma flatten_nil_of_rowlens {a b : Block} (h : a.map List.length = b.map List.length)
    (ha : a.flatten = []) : b.flatten = [] := by
  have h1 : (a.flatten).length = (b.flatten).length := by
    rw [List.length_flatten, List.length_flatten, h]
  rw [ha] at h1
  exact List.eq_nil_of_length_eq_zero h1.symm

/-- Claim C6: if a numerical failure occurs inside the first processing
section on a block that actually carries samples, the callback still
returns the raw input as output (the exception is caught at the callback
boundary — `callback` is a total function) and `prev_buffer` is exactly the
pre-failure value, so the next block processes from unchanged state.
(For a block with samples, every failure point — gate or crossfade —
precedes the line-77 store; the only post-store failure, `np.max` of an
empty array, needs a block with zero samples, which a live stream never
delivers.) -/
theorem callback_failure_passthrough (strength overlap : ℝ) (indata prevBuf : Block)
    (hne : indata.flatten ≠ [])
    (h : (section1 strength overlap indata prevBuf).1 = none) :
    callback strength overlap indata (some prevBuf) = (indata, some prevBuf) := by
  have hprev : (section1 strength overlap indata prevBuf).2 = prevBuf := by
    simp only [section1] at h ⊢
    cases hcl : channelLoop strength indata with
    | none => simp [hcl]
    | some audio =>
      simp only [hcl] at h ⊢
      cases hcf : crossfade audio prevBuf overlap with
      | none => simp [hcf]
      | some faded =>
        simp only [hcf] at h ⊢
        cases hn : normalize faded with
        | none =>
          exfalso
          have hfe : faded.flatten = [] := normalize_eq_none hn
          have hshape : faded.map List.length = indata.map List.length := by
            rw [crossfade_rowlens hcf, channelLoop_rowlens hcl]
          exact hne (flatten_nil_of_rowlens hshape hfe)
        | some out => simp [hn] at h
  rw [callback]
  have hip : initPrev (some prevBuf) indata = prevBuf := rfl
  rw [hip, hprev, section2_eq_none]

/-- Witness for `callback_failure_passthrough`: a three-frame mono block
fails inside the gate (spectrum of 2 bins cannot take the 5-tap smoothed
mask), and the callback passes the raw input through with the previous
buffer untouched. -/
theorem callback_failure_passthrough_witness :
    callback 0 (1 / 2) [[(0 : ℝ)], [0], [0]] (some [[(0 : ℝ)], [0], [0]]) =
      ([[(0 : ℝ)], [0], [0]], some [[(0 : ℝ)], [0], [0]]) := by
  apply callback_failure_passthrough
  · simp
  · have hg : gate (getCol [[(0 : ℝ)], [0], [0]] 0) 0 = none := by
      have hcol : getCol [[(0 : ℝ)], [0], [0]] 0 = [0, 0, 0] := rfl
      rw [hcol]
      exact gate_short_none _ _ (by simp) (by norm_num)
    have hcl : channelLoop 0 [[(0 : ℝ)], [0], [0]] = none := by
      rw [channelLoop]
      have hnc : numChannels [[(0 : ℝ)], [0], [0]] = 1 := rfl
      rw [hnc, show List.range 1 = [0] by simp [List.range_succ]]
      simp [List.foldlM, hg]
    simp [section1, hcl]

/-! ## The gate on all-zero channels -/

lemma getD_replicate_self {α : Type*} (a : α) (N n : ℕ) :
    (List.replicate N a).getD n a = a := by
  rcases lt_or_ge n N with h | h
  · exact getD_replicate _ _ h
  · exact List.getD_eq_default _ _ (by simpa using h)

lemma dftBins_replicate_zero (N : ℕ) :
    dftBins (List.replicate N 0) = List.replicate (N / 2 + 1) 0 := by
  rw [dftBins, List.length_replicate]
  have hz : ∀ k ∈ List.range (N / 2 + 1),
      (∑ n ∈ Finset.range N, ((List.replicate N (0 : ℝ)).getD n 0 : ℂ) *
        Complex.exp (-(2 * Real.pi * Complex.I) * k * n / N)) = (0 : ℂ) := by
    intro k _
    apply Finset.sum_eq_zero
    intro n _
    rw [getD_replicate_self]
    simp
  rw [List.map_congr_left hz, List.map_const', List.length_range]

lemma mean_replicate_zero (m : ℕ) : mean (List.replicate m (0 : ℝ)) = 0 := by
  rw [mean, List.sum_replicate]
  simp

lemma keepMask_replicate_zero (m : ℕ) (s : ℝ) :
    keepMask (List.replicate m 0) s = List.replicate m 0 := by
  rw [keepMask]
  simp only [List.map_replicate, AbsoluteValue.map_zero, mean_replicate_zero, zero_mul]
  simp

lemma convolveFull_replicate_zero (m : ℕ) (v : List ℝ) :
    convolveFull (List.replicate m 0) v = List.replicate (m + v.length - 1) 0 := by
  rw [convolveFull, List.length_replicate]
  have hz : ∀ k ∈ List.range (m + v.length - 1),
      (∑ j ∈ Finset.range m,
        if j ≤ k then (List.replicate m (0 : ℝ)).getD j 0 * v.getD (k - j) 0 else 0) = (0 : ℝ) := by
    intro k _
    apply Finset.sum_eq_zero
    intro j _
    rw [getD_replicate_self, zero_mul, ite_self]
  rw [List.map_congr_left hz, List.map_const', List.length_range]

lemma convolveSame_replicate_zero (m : ℕ) (h : 5 ≤ m) :
    convolveSame (List.replicate m 0) smoothKernel = List.replicate m 0 := by
  rw [convolveSame, convolveFull_replicate_zero, smoothKernel_length, List.length_replicate,
    List.drop_replicate, List.take_replicate]
  congr 1
  omega

lemma fullSpec_replicate_zero (m n k : ℕ) :
    fullSpec (List.replicate m 0) n k = 0 := by
  rw [fullSpec]
  split
  · exact getD_replicate_self _ _ _
  · rw [getD_replicate_self, map_zero]

lemma irfftVals_replicate_zero (m : ℕ) :
    irfftVals (List.replicate m 0) = List.replicate (2 * (m - 1)) 0 := by
  rw [irfftVals, List.length_replicate]
  have hz : ∀ j ∈ List.range (2 * (m - 1)),
      ((∑ k ∈ Finset.range (2 * (m - 1)),
          fullSpec (List.replicate m 0) (2 * (m - 1)) k *
            Complex.exp (2 * Real.pi * Complex.I * j * k / ((2 * (m - 1) : ℕ) : ℂ))) /
        ((2 * (m - 1) : ℕ) : ℂ)).re = (0 : ℝ) := by
    intro j _
    have : (∑ k ∈ Finset.range (2 * (m - 1)),
        fullSpec (List.replicate m (0 : ℂ)) (2 * (m - 1)) k *
          Complex.exp (2 * Real.pi * Complex.I * j * k / ((2 * (m - 1) : ℕ) : ℂ))) = 0 := by
      apply Finset.sum_eq_zero
      intro k _
      rw [fullSpec_replicate_zero, zero_mul]
    rw [this, zero_div, Complex.zero_re]
  rw [List.map_congr_left hz, List.map_const', List.length_range]

/-- The gate on an all-zero channel of length `N ≥ 8` (so that the 5-tap
mask broadcasts): the keep-mask is all-false (`0 > 0` fails), the zero
spectrum is unchanged by masking, and the inverse transform returns
`2*(N/2)` zeros, trimmed to `min N (2*(N/2))` samples — all of `N` exactly
when `N` is even. -/
lemma gate_replicate_zero (N : ℕ) (s : ℝ) (h8 : 8 ≤ N) :
    gate (List.replicate N 0) s = some (List.replicate (min N (2 * (N / 2))) 0) := by
  have hm5 : 5 ≤ N / 2 + 1 := by omega
  rw [gate, rfft, if_neg (by rw [List.length_replicate]; omega)]
  simp only [Option.bind_eq_bind, Option.some_bind]
  rw [dftBins_replicate_zero, keepMask_replicate_zero, convolveSame_replicate_zero _ hm5]
  rw [inplaceMul1D, if_pos (by simp)]
  rw [List.zipWith_replicate, min_self]
  simp only [zero_mul]
  simp only [Option.some_bind]
  rw [irfft, if_neg (by rw [List.length_replicate]; omega)]
  simp only [Option.some_bind]
  rw [irfftVals_replicate_zero]
  have h2 : (2 : ℕ) * (N / 2 + 1 - 1) = 2 * (N / 2) := by omega
  rw [h2]
  simp only [List.length_replicate]
  by_cases hpar : 2 * (N / 2) = N
  · rw [if_neg (by omega)]
    rw [show min N (2 * (N / 2)) = 2 * (N / 2) by omega]
    rfl
  · rw [if_pos (by omega), List.take_replicate]
    rfl

/-- Claim C4 counterexample: a concrete all-silent channel (length 4,
strength `1/2 ∈ [0,1]`) on which the gate does *not* return the input — it
raises (the 2-bin-spectrum + 5-tap mask broadcast fails), so there is no
output at all. -/
theorem gate_silence_counterexample :
    gate (List.replicate 4 (0 : ℝ)) (1 / 2) ≠ some (List.replicate 4 (0 : ℝ)) := by
  rw [gate_short_none _ _ (by simp) (by norm_num)]
  simp

/-- Claim C4 (amended): for an all-zero channel of *even length `≥ 8`* and
any strength in `[0,1]`, the gate returns the input unchanged.  The
mechanism differs from the claim: the threshold is `0` but the keep-mask is
all-*false* (`0 > 0` is false), and the signal survives because masking a
zero spectrum leaves it zero. -/
theorem gate_silence_even (N : ℕ) (s : ℝ) (heven : N % 2 = 0) (h8 : 8 ≤ N)
    (h0 : 0 ≤ s) (h1 : s ≤ 1) :
    gate (List.replicate N 0) s = some (List.replicate N 0) := by
  rw [gate_replicate_zero N s h8]
  congr 1
  rw [show 2 * (N / 2) = N by omega, min_self]

/-- Witness for `gate_silence_even` at `N = 8`, `s = 1/2`. -/
theorem gate_silence_even_witness :
    gate (List.replicate 8 (0 : ℝ)) (1 / 2) = some (List.replicate 8 (0 : ℝ)) :=
  gate_silence_even 8 (1 / 2) (by norm_num) (by norm_num) (by norm_num) (by norm_num)

/-- Claim C7 (code bug, evaluated at the failing input): for the all-zero
channel of odd length 9 the inverse transform yields `2*(9/2) = 8` samples
and the trim-only "Ensure correct length" step cannot extend them, so the
gate's output has length 8, not 9. -/
theorem gate_odd_length_shrinks :
    gate (List.replicate 9 (0 : ℝ)) (1 / 2) = some (List.replicate 8 (0 : ℝ)) ∧
    (List.replicate 8 (0 : ℝ)).length ≠ 9 := by
  constructor
  · rw [gate_replicate_zero 9 (1 / 2) (by norm_num)]
    rw [show (9 : ℕ) ⊓ (2 * (9 / 2)) = 8 by norm_num]
  · simp

/-! ## The 5-tap smoothing kernel in closed form -/

lemma hanning5 : hanning 5 = [0, 1 / 2, 1, 1 / 2, 0] := by
  rw [hanning, if_neg (by norm_num)]
  rw [show List.range 5 = [0, 1, 2, 3, 4] from rfl]
  simp only [List.map_cons, List.map_nil]
  have h0 : (1 : ℝ) / 2 - 1 / 2 * Real.cos (2 * Real.pi * (0 : ℕ) / ((5 : ℕ) - 1)) = 0 := by
    rw [show 2 * Real.pi * ((0 : ℕ) : ℝ) / (((5 : ℕ) : ℝ) - 1) = 0 by push_cast; ring,
      Real.cos_zero]
    norm_num
  have h1 : (1 : ℝ) / 2 - 1 / 2 * Real.cos (2 * Real.pi * (1 : ℕ) / ((5 : ℕ) - 1)) = 1 / 2 := by
    rw [show 2 * Real.pi * ((1 : ℕ) : ℝ) / (((5 : ℕ) : ℝ) - 1) = Real.pi / 2 by
      push_cast; ring, Real.cos_pi_div_two]
    norm_num
  have h2 : (1 : ℝ) / 2 - 1 / 2 * Real.cos (2 * Real.pi * (2 : ℕ) / ((5 : ℕ) - 1)) = 1 := by
    rw [show 2 * Real.pi * ((2 : ℕ) : ℝ) / (((5 : ℕ) : ℝ) - 1) = Real.pi by
      push_cast; ring, Real.cos_pi]
    norm_num
  have h3 : (1 : ℝ) / 2 - 1 / 2 * Real.cos (2 * Real.pi * (3 : ℕ) / ((5 : ℕ) - 1)) = 1 / 2 := by
    rw [show 2 * Real.pi * ((3 : ℕ) : ℝ) / (((5 : ℕ) : ℝ) - 1) = Real.pi + Real.pi / 2 by
      push_cast; ring, Real.cos_add, Real.cos_pi, Real.sin_pi, Real.cos_pi_div_two]
    norm_num
  have h4 : (1 : ℝ) / 2 - 1 / 2 * Real.cos (2 * Real.pi * (4 : ℕ) / ((5 : ℕ) - 1)) = 0 := by
    rw [show 2 * Real.pi * ((4 : ℕ) : ℝ) / (((5 : ℕ) : ℝ) - 1) = 2 * Real.pi by
      push_cast; ring, Real.cos_two_pi]
    norm_num
  rw [h0, h1, h2, h3, h4]

lemma kernel5 : smoothKernel = [0, 1 / 4, 1 / 2, 1 / 4, 0] := by
  rw [smoothKernel, hanning5]
  rw [show ([0, 1 / 2, 1, 1 / 2, 0] : List ℝ).sum = 2 by norm_num]
  norm_num

/-! ## Roots of unity: the DFT of a constant signal -/

/-- Geometric-sum vanishing of the `k`-th root-of-unity powers,
`0 < k < N`. -/
lemma sum_exp_root (N k : ℕ) (h0 : 0 < k) (hkN : k < N) :
    ∑ n ∈ Finset.range N,
      Complex.exp (-(2 * Real.pi * Complex.I) * (k : ℂ) * (n : ℂ) / (N : ℂ)) = 0 := by
  have hN : (N : ℂ) ≠ 0 := by
    simp only [ne_eq, Nat.cast_eq_zero]
    omega
  have hpi : ((Real.pi : ℂ)) ≠ 0 := by
    simp [Complex.ofReal_ne_zero, Real.pi_ne_zero]
  have h2pi : (2 * (Real.pi : ℂ) * Complex.I) ≠ 0 :=
    mul_ne_zero (mul_ne_zero two_ne_zero hpi) Complex.I_ne_zero
  set z : ℂ := Complex.exp (-(2 * Real.pi * Complex.I) * (k : ℂ) / (N : ℂ)) with hzdef
  have hterm : ∀ n : ℕ,
      Complex.exp (-(2 * Real.pi * Complex.I) * (k : ℂ) * (n : ℂ) / (N : ℂ)) = z ^ n := by
    intro n
    rw [hzdef, ← Complex.exp_nat_mul]
    congr 1
    ring
  have hz1 : z ≠ 1 := by
    rw [hzdef]
    intro hcon
    rw [Complex.exp_eq_one_iff] at hcon
    obtain ⟨m, hm⟩ := hcon
    have h3 := congrArg (fun t => t * (N : ℂ)) hm
    simp only at h3
    rw [div_mul_cancel₀ _ hN] at h3
    have h4 : (2 * (Real.pi : ℂ) * Complex.I) * (-(k : ℂ)) =
        (2 * (Real.pi : ℂ) * Complex.I) * ((m : ℂ) * (N : ℂ)) := by
      linear_combination h3
    have h5 : -((k : ℂ)) = (m : ℂ) * (N : ℂ) := mul_left_cancel₀ h2pi h4
    have h6 : -((k : ℤ)) = m * (N : ℤ) := by exact_mod_cast h5
    rcases lt_trichotomy m 0 with hm' | hm' | hm'
    · have hmle : m ≤ -1 := by omega
      have : m * (N : ℤ) ≤ -1 * (N : ℤ) :=
        mul_le_mul_of_nonneg_right hmle (by positivity)
      have hkN' : (k : ℤ) < (N : ℤ) := by exact_mod_cast hkN
      linarith
    · subst hm'
      simp at h6
      omega
    · have hmge : 1 ≤ m := by omega
      have : 1 * (N : ℤ) ≤ m * (N : ℤ) :=
        mul_le_mul_of_nonneg_right hmge (by positivity)
      have hk0' : (0 : ℤ) < (k : ℤ) := by exact_mod_cast h0
      linarith
  have hzN : z ^ N = 1 := by
    rw [hzdef, ← Complex.exp_nat_mul]
    have hc : (N : ℂ) * (-(2 * Real.pi * Complex.I) * (k : ℂ) / (N : ℂ)) =
        -(2 * Real.pi * Complex.I) * (k : ℂ) := by
      rw [mul_div_assoc']
      rw [mul_comm ((N : ℂ))]
      rw [mul_div_assoc, div_self hN, mul_one]
    rw [hc]
    rw [show -(2 * (Real.pi : ℂ) * Complex.I) * (k : ℂ) =
        ((-(k : ℤ) : ℤ) : ℂ) * (2 * (Real.pi : ℂ) * Complex.I) by push_cast; ring]
    exact Complex.exp_int_mul_two_pi_mul_I _
  calc ∑ n ∈ Finset.range N,
        Complex.exp (-(2 * Real.pi * Complex.I) * (k : ℂ) * (n : ℂ) / (N : ℂ))
      = ∑ n ∈ Finset.range N, z ^ n := Finset.sum_congr rfl (fun n _ => hterm n)
    _ = (z ^ N - 1) / (z - 1) := geom_sum_eq hz1 N
    _ = 0 := by rw [hzN]; simp

/-- The DFT of eight ones: all energy in the DC bin. -/
lemma rfft_ones8 : rfft (List.replicate 8 (1 : ℝ)) = some [(8 : ℂ), 0, 0, 0, 0] := by
  rw [rfft, if_neg (by simp)]
  congr 1
  rw [dftBins, List.length_replicate]
  rw [show List.range (8 / 2 + 1) = [0, 1, 2, 3, 4] from rfl]
  simp only [List.map_cons, List.map_nil]
  have hone : ∀ k : ℕ,
      (∑ n ∈ Finset.range 8, ((List.replicate 8 (1 : ℝ)).getD n 0 : ℂ) *
        Complex.exp (-(2 * Real.pi * Complex.I) * (k : ℂ) * (n : ℂ) / ((8 : ℕ) : ℂ))) =
      ∑ n ∈ Finset.range 8,
        Complex.exp (-(2 * Real.pi * Complex.I) * (k : ℂ) * (n : ℂ) / ((8 : ℕ) : ℂ)) := by
    intro k
    apply Finset.sum_congr rfl
    intro n hn
    rw [getD_replicate _ _ (List.mem_range.mp hn)]
    simp
  have hz : ∀ k : ℕ, 0 < k → k < 8 →
      (∑ n ∈ Finset.range 8, ((List.replicate 8 (1 : ℝ)).getD n 0 : ℂ) *
        Complex.exp (-(2 * Real.pi * Complex.I) * (k : ℂ) * (n : ℂ) / ((8 : ℕ) : ℂ))) = 0 := by
    intro k hk0 hk8
    rw [hone k]
    exact sum_exp_root 8 k hk0 hk8
  have hdc :
      (∑ n ∈ Finset.range 8, ((List.replicate 8 (1 : ℝ)).getD n 0 : ℂ) *
        Complex.exp (-(2 * Real.pi * Complex.I) * ((0 : ℕ) : ℂ) * (n : ℂ) / ((8 : ℕ) : ℂ))) =
      (8 : ℂ) := by
    rw [hone 0]
    have : ∀ n ∈ Finset.range 8,
        Complex.exp (-(2 * Real.pi * Complex.I) * ((0 : ℕ) : ℂ) * (n : ℂ) / ((8 : ℕ) : ℂ)) =
          (1 : ℂ) := by
      intro n _
      simp
    rw [Finset.sum_congr rfl this]
    simp
  rw [hdc, hz 1 (by norm_num) (by norm_num), hz 2 (by norm_num) (by norm_num),
    hz 3 (by norm_num) (by norm_num), hz 4 (by norm_num) (by norm_num)]

/-! ## Evaluating the gate at strength 0 on the constant signal -/

lemma keepMask_ones8 : keepMask [(8 : ℂ), 0, 0, 0, 0] 0 = [1, 0, 0, 0, 0] := by
  rw [keepMask]
  simp only [List.map_cons, List.map_nil, AbsoluteValue.map_zero, Complex.abs_ofNat]
  rw [mul_zero]
  norm_num

lemma convolveSame_impulse :
    convolveSame [(1 : ℝ), 0, 0, 0, 0] smoothKernel = [1 / 2, 1 / 4, 0, 0, 0] := by
  rw [kernel5]
  have key : ∀ k : ℕ,
      (∑ j ∈ Finset.range 5,
        if j ≤ k then [(1 : ℝ), 0, 0, 0, 0].getD j 0 *
          ([0, 1 / 4, 1 / 2, 1 / 4, 0] : List ℝ).getD (k - j) 0 else 0) =
      ([0, 1 / 4, 1 / 2, 1 / 4, 0] : List ℝ).getD k 0 := by
    intro k
    rw [Finset.sum_range_succ, Finset.sum_range_succ, Finset.sum_range_succ,
      Finset.sum_range_succ, Finset.sum_range_succ, Finset.sum_range_zero]
    rw [show [(1 : ℝ), 0, 0, 0, 0].getD 0 0 = 1 from rfl,
      show [(1 : ℝ), 0, 0, 0, 0].getD 1 0 = 0 from rfl,
      show [(1 : ℝ), 0, 0, 0, 0].getD 2 0 = 0 from rfl,
      show [(1 : ℝ), 0, 0, 0, 0].getD 3 0 = 0 from rfl,
      show [(1 : ℝ), 0, 0, 0, 0].getD 4 0 = 0 from rfl]
    simp [Nat.zero_le]
  rw [convolveSame, convolveFull]
  rw [show [(1 : ℝ), 0, 0, 0, 0].length = 5 from rfl,
    show ([0, 1 / 4, 1 / 2, 1 / 4, 0] : List ℝ).length = 5 from rfl]
  rw [List.map_congr_left (fun k _ => key k)]
  rfl

lemma irfft_four : irfft [(4 : ℂ), 0, 0, 0, 0] = some (List.replicate 8 (1 / 2 : ℝ)) := by
  rw [irfft, if_neg (by norm_num)]
  congr 1
  rw [irfftVals]
  rw [show (2 * (([(4 : ℂ), 0, 0, 0, 0]).length - 1) : ℕ) = 8 from rfl]
  have hj : ∀ j ∈ List.range 8,
      ((∑ k ∈ Finset.range 8, fullSpec [(4 : ℂ), 0, 0, 0, 0] 8 k *
          Complex.exp (2 * Real.pi * Complex.I * (j : ℂ) * (k : ℂ) / ((8 : ℕ) : ℂ))) /
        ((8 : ℕ) : ℂ)).re = (1 / 2 : ℝ) := by
    intro j _
    have hsum : (∑ k ∈ Finset.range 8, fullSpec [(4 : ℂ), 0, 0, 0, 0] 8 k *
        Complex.exp (2 * Real.pi * Complex.I * (j : ℂ) * (k : ℂ) / ((8 : ℕ) : ℂ))) = 4 := by
      rw [Finset.sum_eq_single 0]
      · simp [fullSpec]
      · intro b hb hbne
        have hb8 : b < 8 := Finset.mem_range.mp hb
        have hf0 : fullSpec [(4 : ℂ), 0, 0, 0, 0] 8 b = 0 := by
          rw [fullSpec]
          have h1 : 1 ≤ b := by omega
          have h7 : b ≤ 7 := by omega
          interval_cases b
          · rw [if_pos (by norm_num)]; rfl
          · rw [if_pos (by norm_num)]; rfl
          · rw [if_pos (by norm_num)]; rfl
          · rw [if_pos (by norm_num)]; rfl
          · rw [if_neg (by norm_num), show (8 : ℕ) - 5 = 3 from rfl,
              show ([(4 : ℂ), 0, 0, 0, 0]).getD 3 0 = 0 from rfl]
            exact map_zero _
          · rw [if_neg (by norm_num), show (8 : ℕ) - 6 = 2 from rfl,
              show ([(4 : ℂ), 0, 0, 0, 0]).getD 2 0 = 0 from rfl]
            exact map_zero _
          · rw [if_neg (by norm_num), show (8 : ℕ) - 7 = 1 from rfl,
              show ([(4 : ℂ), 0, 0, 0, 0]).getD 1 0 = 0 from rfl]
            exact map_zero _
        rw [hf0, zero_mul]
      · intro habs
        simp at habs
    rw [hsum]
    rw [show ((4 : ℂ) / ((8 : ℕ) : ℂ)) = (((1 / 2 : ℝ) : ℝ) : ℂ) by push_cast; norm_num]
    exact Complex.ofReal_re _
  rw [List.map_congr_left hj, List.map_const', List.length_range]

/-- The gate at strength 0 on eight ones returns eight halves: the DC bin
carries all the energy, the smoothed mask leaves `3/4` at the spectrum's
first slot but the convolution spreads the single-bin mask to `1/2` there,
and the reconstruction is the constant `1/2` signal. -/
lemma gate_ones8 : gate (List.replicate 8 (1 : ℝ)) 0 = some (List.replicate 8 (1 / 2 : ℝ)) := by
  rw [gate, rfft_ones8]
  simp only [Option.bind_eq_bind, Option.some_bind]
  rw [keepMask_ones8, convolveSame_impulse]
  rw [inplaceMul1D, if_pos (by norm_num)]
  have hzip : List.zipWith (fun (z : ℂ) (r : ℝ) => z * (r : ℂ))
      [(8 : ℂ), 0, 0, 0, 0] [1 / 2, 1 / 4, 0, 0, 0] = [(4 : ℂ), 0, 0, 0, 0] := by
    simp only [List.zipWith_cons_cons, List.zipWith_nil_right]
    push_cast
    norm_num
  rw [hzip]
  simp only [Option.some_bind]
  rw [irfft_four]
  simp only [Option.some_bind]
  rw [if_neg (by simp)]
  rfl

/-- Claim C2 counterexample: at strength 0 the gate is *not* a lossless
round trip — the constant signal of eight ones comes back as eight halves
(the mask `[1,0,0,0,0]` is smoothed to `[1/2, 1/4, 0, 0, 0]`, halving the
DC bin), a full 50 % amplitude error, far outside numerical tolerance. -/
theorem gate_roundtrip_counterexample :
    gate (List.replicate 8 (1 : ℝ)) 0 = some (List.replicate 8 (1 / 2 : ℝ)) ∧
    List.replicate 8 (1 / 2 : ℝ) ≠ List.replicate 8 (1 : ℝ) := by
  refine ⟨gate_ones8, fun h => ?_⟩
  rw [show List.replicate 8 (1 / 2 : ℝ) = (1 / 2 : ℝ) :: List.replicate 7 (1 / 2 : ℝ) from rfl,
    show List.replicate 8 (1 : ℝ) = (1 : ℝ) :: List.replicate 7 (1 : ℝ) from rfl] at h
  simp only [List.cons.injEq] at h
  norm_num at h

/-! ## Smoothing an all-ones mask: `3/4` at the edges, `1` inside -/

/-- One summand of the convolution of an all-ones mask with the kernel
`[0, 1/4, 1/2, 1/4, 0]`, rewritten as a sum of point masses at
`j = k - 1`, `j = k - 2`, `j = k - 3`. -/
lemma convTerm (k j : ℕ) :
    (if j ≤ k then ([0, 1 / 4, 1 / 2, 1 / 4, 0] : List ℝ).getD (k - j) 0 else 0) =
      (if 1 ≤ k then (if j = k - 1 then (1 / 4 : ℝ) else 0) else 0) +
      (if 2 ≤ k then (if j = k - 2 then (1 / 2 : ℝ) else 0) else 0) +
      (if 3 ≤ k then (if j = k - 3 then (1 / 4 : ℝ) else 0) else 0) := by
  have e : ∀ (c : ℕ) (val : ℝ), ((k - j = c ∧ j ≤ k ∧ c ≤ k) → False) →
      (if c ≤ k then (if j = k - c then val else 0) else 0) = 0 := by
    intro c val hcon
    rcases le_or_lt c k with hck | hck
    · rw [if_pos hck, if_neg (fun hj => hcon ⟨by omega, by omega, hck⟩)]
    · rw [if_neg (by omega)]
  have p : ∀ (c : ℕ) (val : ℝ), k - j = c → j ≤ k → 1 ≤ c →
      (if c ≤ k then (if j = k - c then val else 0) else 0) = val := by
    intro c val hc hjk hc1
    rw [if_pos (by omega), if_pos (by omega)]
  by_cases hjk : j ≤ k
  · rw [if_pos hjk]
    have ht : k - j = 0 ∨ k - j = 1 ∨ k - j = 2 ∨ k - j = 3 ∨ k - j = 4 ∨ 5 ≤ k - j := by
      omega
    rcases ht with ht | ht | ht | ht | ht | ht
    · rw [ht, show ([0, 1 / 4, 1 / 2, 1 / 4, 0] : List ℝ).getD 0 0 = 0 from rfl,
        e 1 _ (by omega), e 2 _ (by omega), e 3 _ (by omega)]
      norm_num
    · rw [ht, show ([0, 1 / 4, 1 / 2, 1 / 4, 0] : List ℝ).getD 1 0 = 1 / 4 from rfl,
        p 1 _ ht hjk (by omega), e 2 _ (by omega), e 3 _ (by omega)]
      norm_num
    · rw [ht, show ([0, 1 / 4, 1 / 2, 1 / 4, 0] : List ℝ).getD 2 0 = 1 / 2 from rfl,
        e 1 _ (by omega), p 2 _ ht hjk (by omega), e 3 _ (by omega)]
      norm_num
    · rw [ht, show ([0, 1 / 4, 1 / 2, 1 / 4, 0] : List ℝ).getD 3 0 = 1 / 4 from rfl,
        e 1 _ (by omega), e 2 _ (by omega), p 3 _ ht hjk (by omega)]
      norm_num
    · rw [ht, show ([0, 1 / 4, 1 / 2, 1 / 4, 0] : List ℝ).getD 4 0 = 0 from rfl,
        e 1 _ (by omega), e 2 _ (by omega), e 3 _ (by omega)]
      norm_num
    · rw [List.getD_eq_default _ _ (by simpa using ht),
        e 1 _ (by omega), e 2 _ (by omega), e 3 _ (by omega)]
      norm_num
  · rw [if_neg hjk, e 1 _ (by omega), e 2 _ (by omega), e 3 _ (by omega)]
    norm_num

/-- Convolving the all-ones mask of length `m ≥ 5` with the normalised
5-tap Hann kernel under zero-padded `same` convolution: `3/4` at the first
and last positions, `1` everywhere in between. -/
lemma convolveSame_ones (m : ℕ) (h : 5 ≤ m) :
    convolveSame (List.replicate m (1 : ℝ)) smoothKernel =
      (List.range m).map (fun i : ℕ => if i = 0 ∨ i = m - 1 then (3 / 4 : ℝ) else 1) := by
  rw [kernel5, convolveSame, convolveFull, List.length_replicate]
  rw [show ([0, 1 / 4, 1 / 2, 1 / 4, 0] : List ℝ).length = 5 from rfl]
  rw [show min m 5 = 5 by omega, show max m 5 = m by omega]
  rw [show ((5 : ℕ) - 1) / 2 = 2 from rfl]
  have hbody : ∀ k ∈ List.range (m + 5 - 1),
      (∑ j ∈ Finset.range m,
        if j ≤ k then (List.replicate m (1 : ℝ)).getD j 0 *
          ([0, 1 / 4, 1 / 2, 1 / 4, 0] : List ℝ).getD (k - j) 0 else 0) =
      (if 1 ≤ k then (if k - 1 < m then (1 / 4 : ℝ) else 0) else 0) +
      (if 2 ≤ k then (if k - 2 < m then (1 / 2 : ℝ) else 0) else 0) +
      (if 3 ≤ k then (if k - 3 < m then (1 / 4 : ℝ) else 0) else 0) := by
    intro k _
    have hcong : ∀ j ∈ Finset.range m,
        (if j ≤ k then (List.replicate m (1 : ℝ)).getD j 0 *
          ([0, 1 / 4, 1 / 2, 1 / 4, 0] : List ℝ).getD (k - j) 0 else 0) =
        (if 1 ≤ k then (if j = k - 1 then (1 / 4 : ℝ) else 0) else 0) +
        (if 2 ≤ k then (if j = k - 2 then (1 / 2 : ℝ) else 0) else 0) +
        (if 3 ≤ k then (if j = k - 3 then (1 / 4 : ℝ) else 0) else 0) := by
      intro j hj
      rw [getD_replicate _ _ (Finset.mem_range.mp hj), one_mul]
      exact convTerm k j
    rw [Finset.sum_congr rfl hcong]
    rw [Finset.sum_add_distrib, Finset.sum_add_distrib]
    have hA : ∀ (c : ℕ) (val : ℝ),
        (∑ j ∈ Finset.range m, if c ≤ k then (if j = k - c then val else 0) else 0) =
        (if c ≤ k then (if k - c < m then val else 0) else 0) := by
      intro c val
      rcases le_or_lt c k with hck | hck
      · simp only [if_pos hck]
        rw [Finset.sum_ite_eq' (Finset.range m) (k - c) (fun _ => val)]
        simp [Finset.mem_range]
      · simp [if_neg (by omega : ¬ c ≤ k)]
    rw [hA 1 (1 / 4), hA 2 (1 / 2), hA 3 (1 / 4)]
  rw [List.map_congr_left hbody]
  apply List.ext_getElem
  · simp only [List.length_take, List.length_drop, List.length_map, List.length_range]
    omega
  · intro i h1 h2
    have him : i < m := by
      simpa using h2
    simp only [List.getElem_take, List.getElem_drop, List.getElem_map, List.getElem_range]
    by_cases hi0 : i = 0
    · subst hi0
      rw [if_pos (by omega), if_pos (by omega), if_pos (by omega), if_pos (by omega),
        if_neg (by omega), if_pos (Or.inl rfl)]
      norm_num
    · by_cases him1 : i = m - 1
      · rw [if_pos (by omega), if_neg (by omega), if_pos (by omega), if_pos (by omega),
          if_pos (by omega), if_pos (by omega), if_pos (Or.inr him1)]
        norm_num
      · rw [if_pos (by omega), if_pos (by omega), if_pos (by omega), if_pos (by omega),
          if_pos (by omega), if_pos (by omega), if_neg (by tauto)]
        norm_num

/-- Claim C2 (amended): with `strength = 0`, for a channel of even length
`≥ 8` whose spectrum is nonzero in every bin (so the keep-mask is genuinely
all-pass), the gate equals the inverse transform of the spectrum with its
*first and last bins scaled by `3/4`* and all interior bins unchanged: the
zero-padded `same` convolution attenuates the smoothed mask at both edges,
so the forward–mask–inverse round trip is *not* lossless. -/
theorem gate_strengthZero_edgeAttenuated (x : Sig) (X : List ℂ)
    (hr : rfft x = some X) (heven : x.length % 2 = 0) (h8 : 8 ≤ x.length)
    (hnz : ∀ z ∈ X, z ≠ 0) :
    gate x 0 = irfft (edgeScale X) := by
  have hx0 : x.length ≠ 0 := by omega
  rw [rfft, if_neg hx0] at hr
  have hX : dftBins x = X := Option.some.inj hr
  have hlen : X.length = x.length / 2 + 1 := by
    rw [← hX, dftBins_length]
  have hm5 : 5 ≤ X.length := by omega
  have hkm : keepMask X 0 = List.replicate X.length 1 := by
    rw [keepMask]
    simp only [mul_zero, List.map_map]
    have hpt : ∀ z ∈ X, ((fun m => if m > 0 then (1 : ℝ) else 0) ∘ Complex.abs) z = 1 := by
      intro z hz
      simp only [Function.comp_apply]
      rw [if_pos (Complex.abs.pos (hnz z hz))]
    rw [List.map_congr_left hpt, List.map_const']
  have hip : inplaceMul1D X (convolveSame (List.replicate X.length 1) smoothKernel) =
      some (edgeScale X) := by
    rw [convolveSame_ones X.length hm5]
    rw [inplaceMul1D, if_pos (by simp)]
    congr 1
    apply List.ext_getElem
    · simp [edgeScale]
    · intro i hi1 hi2
      have hiX : i < X.length := by simpa using hi1
      simp only [List.getElem_zipWith, List.getElem_map, List.getElem_range, edgeScale]
      rw [List.getD_eq_getElem _ _ hiX]
      rw [apply_ite (fun r : ℝ => (r : ℂ)), Complex.ofReal_one]
  rw [gate, rfft, if_neg hx0]
  simp only [Option.bind_eq_bind, Option.some_bind]
  rw [hX, hkm, hip]
  simp only [Option.some_bind]
  have hes_len : (edgeScale X).length = X.length := by
    simp [edgeScale]
  rw [irfft, if_neg (by rw [hes_len]; omega)]
  simp only [Option.some_bind]
  have hlen2 : (irfftVals (edgeScale X)).length = x.length := by
    rw [irfftVals, List.length_map, List.length_range, hes_len, hlen]
    omega
  rw [if_neg (by rw [hlen2]; simp)]
  rfl

/-- The DFT of the unit impulse: every bin is `1`. -/
lemma rfft_impulse8 : rfft ((1 : ℝ) :: List.replicate 7 0) = some [1, 1, 1, 1, 1] := by
  rw [rfft, if_neg (by simp)]
  congr 1
  rw [dftBins]
  rw [show ((1 : ℝ) :: List.replicate 7 0).length = 8 by simp]
  rw [show List.range (8 / 2 + 1) = [0, 1, 2, 3, 4] from rfl]
  simp only [List.map_cons, List.map_nil]
  have hsum : ∀ k : ℕ,
      (∑ n ∈ Finset.range 8, ((((1 : ℝ) :: List.replicate 7 0).getD n 0 : ℝ) : ℂ) *
        Complex.exp (-(2 * Real.pi * Complex.I) * (k : ℂ) * (n : ℂ) / ((8 : ℕ) : ℂ))) = 1 := by
    intro k
    rw [Finset.sum_eq_single 0]
    · rw [show ((1 : ℝ) :: List.replicate 7 0).getD 0 0 = 1 from rfl]
      simp
    · intro b hb hbne
      have hgd : ((1 : ℝ) :: List.replicate 7 0).getD b 0 = 0 := by
        rcases b with _ | b'
        · exact absurd rfl hbne
        · rw [List.getD_cons_succ]
          exact getD_replicate_self 0 7 b'
      rw [hgd]
      simp
    · intro habs
      simp at habs
  rw [hsum 0, hsum 1, hsum 2, hsum 3, hsum 4]

/-- Witness for `gate_strengthZero_edgeAttenuated` at the unit impulse of
length 8 (spectrum `[1,1,1,1,1]`, all bins nonzero). -/
theorem gate_strengthZero_edgeAttenuated_witness :
    gate ((1 : ℝ) :: List.replicate 7 0) 0 = irfft (edgeScale [1, 1, 1, 1, 1]) := by
  apply gate_strengthZero_edgeAttenuated
  · exact rfft_impulse8
  · simp
  · simp
  · intro z hz
    have hz1 : z = 1 := by
      simpa using hz
    rw [hz1]
    exact one_ne_zero

end ClearWave
